import Mathlib

/-!
Connection pool of nsq producers (`producer.go`).

A shallow embedding of the pool: the `Producer` struct, the constructor
`NewProducer`, the scheduling goroutine `work`, the broadcast helper `Each`,
`Next`, `Ping`, `Stop` and the publish family.

* The underlying `*nsq.Producer` connections and `nsq.NewProducer` belong to the
  go-nsq library.  They are an environment `Env`: an oracle giving the outcome of
  every constructor call and of every connection method call.
* Every interaction with the outside (constructor calls, connection method calls,
  channel handoffs, the stop signal) is appended to a trace of `Event`s, so that
  "is invoked exactly once" and "happens before" are statements about that trace.
* The goroutine `work` and the callers run concurrently.  Their interleavings are the
  runs of a step function over `Action`s; each action is one atomic piece of the
  source (one statement of `work`, one channel operation).
* The order in which `range` visits a Go map is chosen by the runtime, so `Each`
  takes that order as an argument; it is a permutation of the map's entries.
-/

namespace NsqPool

/-! ## Data model -/

/-- Values of Go type `interface{}`, as far as the variadic `args` need them. -/
inductive Value where
  | int (n : Int)
  | str (s : String)
  | slice (xs : List Value)

/-- Go `[]byte`. -/
abbrev Bytes := List UInt8

/-- Stands for `nsq.Config` (declared in go-nsq): a bag of options the pool never reads. -/
structure Config where
  opts : List (String × String)

/-- Method calls on one connection `p : *nsq.Producer`, with the arguments received. -/
inductive Call (γ : Type) where
  | ping (p : γ)
  | setLogger (p : γ) (l : Nat) (lvl : Int)
  | stop (p : γ)
  | publishAsync (p : γ) (topic : String) (body : Bytes) (doneChan : Nat) (args : List Value)
  | multiPublishAsync (p : γ) (topic : String) (body : List Bytes) (doneChan : Nat)
      (args : List Value)
  | publish (p : γ) (topic : String) (body : Bytes)
  | multiPublish (p : γ) (topic : String) (body : List Bytes)
  | deferredPublish (p : γ) (topic : String) (delay : Int) (body : Bytes)
  | deferredPublishAsync (p : γ) (topic : String) (delay : Int) (body : Bytes) (doneChan : Nat)
      (args : List Value)

/-- What the pool does to the outside world, in the order it happens. -/
inductive Event (γ : Type) where
  /-- The call `nsq.NewProducer(addr, config)` made at loop index `i`. -/
  | newProducer (i : Int) (addr : String) (config : Config)
  /-- The statement `go pp.work()`. -/
  | goWork
  /-- A method call on a connection. -/
  | call (c : Call γ)
  /-- The goroutine `work` completed the send `pp.worker <- v`. -/
  | offered (v : Option γ)
  /-- A call of `Next` completed the receive `<-pp.worker` with value `v`. -/
  | received (v : Option γ)
  /-- The send `pp.stopChan <- struct{}{}` of `Stop` met the receive in `work`. -/
  | stopSignal

/-- The go-nsq library: the outcome of the constructor call made at loop index `i`,
and the error (or nil) a connection method returns given everything that happened
before. -/
structure Env (γ ε : Type) where
  newProducer : Int → String → Config → Except ε γ
  respond : List (Event γ) → Call γ → Option ε

/-- A Go channel: its capacity and the values staged in its buffer, oldest first. -/
structure Chan (α : Type) where
  cap : Int
  buf : List α

/-- The struct `Producer`.  A Go `map[int]*nsq.Producer` is a list of entries with
distinct keys; a `*nsq.Producer` read from a missing key is nil (`none`). -/
structure Producer (γ : Type) where
  pool : List (Int × γ)
  num : Int
  addr : String
  config : Config
  next : Int
  worker : Chan (Option γ)
  stopChan : Chan Unit

/-- The map read `m[i]`. -/
def mapGet {γ : Type} (m : List (Int × γ)) (i : Int) : Option γ :=
  match m with
  | [] => none
  | (k, v) :: rest => if k = i then some v else mapGet rest i

/-- The map write `m[i] = v`. -/
def mapSet {γ : Type} (m : List (Int × γ)) (i : Int) (v : γ) : List (Int × γ) :=
  match m with
  | [] => [(i, v)]
  | (k, w) :: rest => if k = i then (k, v) :: rest else (k, w) :: mapSet rest i v

/-- How a Go call ends: a run-time panic, a block on a channel, or a return. -/
inductive Outcome (α : Type) where
  | panic
  | blocked
  | ret (a : α)

/-! ## Construction -/

/-- The loop `for i := 0; i < num; i++` of `NewProducer`, entered at index `i` with map
`p` and trace `tr`.  It makes at most `fuel` iterations; `NewProducer` passes `num` of them,
which is the number of iterations the loop makes when no constructor call fails. -/
def newLoop {γ ε : Type} (env : Env γ ε) (addr : String) (config : Config) (num : Int) :
    Nat → Int → List (Int × γ) → List (Event γ) → List (Event γ) × Except ε (List (Int × γ))
  | 0, _, p, tr => (tr, .ok p)
  | fuel + 1, i, p, tr =>
    if i < num then
      match env.newProducer i addr config with
      | .error err => (tr ++ [.newProducer i addr config], .error err)
      | .ok c => newLoop env addr config num fuel (i + 1) (mapSet p i c)
          (tr ++ [.newProducer i addr config])
    else (tr, .ok p)

/-- The function `NewProducer`: the events it causes and the pair it returns.
`make(chan *nsq.Producer, num)` panics for a negative `num`. -/
def NewProducer {γ ε : Type} (env : Env γ ε) (addr : String) (config : Config) (num : Int) :
    List (Event γ) × Outcome (Option (Producer γ) × Option ε) :=
  match newLoop env addr config num num.toNat 0 [] [] with
  | (tr, .error err) => (tr, .ret (none, some err))
  | (tr, .ok p) =>
    if num < 0 then (tr, .panic)
    else
      (tr ++ [.goWork],
        .ret (some
          { pool := p, num := num, addr := addr, config := config, next := 0,
            worker := ⟨num, []⟩, stopChan := ⟨0, []⟩ }, none))

/-! ## The running system -/

/-- Where the goroutine `work` stands. -/
inductive WorkPc where
  /-- About to execute `pp.next = (pp.next + 1) % pp.num`. -/
  | loopTop
  /-- Waiting in the `select`. -/
  | atSelect
  /-- Left through `return`. -/
  | returned
  /-- Died of a run-time panic (which ends the whole process). -/
  | panicked
deriving DecidableEq

/-- The pool together with its goroutine and the callers blocked in `Stop`. -/
structure Sys (γ : Type) where
  pp : Producer γ
  pc : WorkPc
  trace : List (Event γ)
  /-- Calls of `Stop` that finished `Each` and wait at the send on `stopChan`. -/
  stopWaiting : Nat
  /-- Calls of `Stop` that have returned. -/
  stopsDone : Nat

/-- The system right after a successful `NewProducer`. -/
def start {γ ε : Type} (env : Env γ ε) (addr : String) (config : Config) (num : Int) :
    Option (Sys γ) :=
  match NewProducer env addr config num with
  | (tr, .ret (some pp, none)) =>
    some { pp := pp, pc := .loopTop, trace := tr, stopWaiting := 0, stopsDone := 0 }
  | _ => none

/-- The method `Each`, over the entries in the order `range pp.pool` yields them. -/
def Each {γ ε σ : Type} (callback : γ → σ → Option ε × σ) :
    List (Int × γ) → σ → Option ε × σ
  | [], s => (none, s)
  | (_, p) :: rest, s =>
    match callback p s with
    | (some err, s1) => (some err, s1)
    | (none, s1) => Each callback rest s1

/-- One method call on a connection: it is recorded and the library answers. -/
def invoke {γ ε : Type} (env : Env γ ε) (c : Call γ) (s : Sys γ) : Option ε × Sys γ :=
  (env.respond s.trace c, { s with trace := s.trace ++ [.call c] })

/-- First statement of the loop body of `work`; `%` panics on a zero divisor and
truncates towards zero.  The sum `pp.next + 1` stays within `int`, `pp.next` being below
`pp.num`. -/
def workAdvance {γ : Type} (s : Sys γ) : Option (Sys γ) :=
  if s.pc = .loopTop then
    if s.pp.num = 0 then some { s with pc := .panicked }
    else
      some { s with pp := { s.pp with next := Int.tmod (s.pp.next + 1) s.pp.num },
                    pc := .atSelect }
  else none

/-- The `select` case `pp.worker <- pp.pool[pp.next]`: possible while the buffer has
room. -/
def workSend {γ : Type} (s : Sys γ) : Option (Sys γ) :=
  if s.pc = .atSelect ∧ (s.pp.worker.buf.length : Int) < s.pp.worker.cap then
    some { s with
      pp := { s.pp with
        worker := { s.pp.worker with
          buf := s.pp.worker.buf ++ [mapGet s.pp.pool s.pp.next] } },
      pc := .loopTop,
      trace := s.trace ++ [.offered (mapGet s.pp.pool s.pp.next)] }
  else none

/-- The `select` case `<-pp.stopChan` followed by `return`: it meets the send of a
caller waiting in `Stop`, who then returns. -/
def workStop {γ : Type} (s : Sys γ) : Option (Sys γ) :=
  if s.pc = .atSelect ∧ 0 < s.stopWaiting then
    some { s with
      pc := .returned,
      trace := s.trace ++ [.stopSignal],
      stopWaiting := s.stopWaiting - 1,
      stopsDone := s.stopsDone + 1 }
  else none

/-- The method `Next`: `<-pp.worker`; `none` when the receive blocks. -/
def Next {γ : Type} (s : Sys γ) : Option (Option γ × Sys γ) :=
  match s.pp.worker.buf with
  | [] => none
  | v :: rest =>
    some (v, { s with
      pp := { s.pp with worker := { s.pp.worker with buf := rest } },
      trace := s.trace ++ [.received v] })

/-- The method `Ping`. -/
def Ping {γ ε : Type} (env : Env γ ε) (order : List (Int × γ)) (s : Sys γ) :
    Option ε × Sys γ :=
  Each (fun p => invoke env (.ping p)) order s

/-- The method `SetLogger`; the logger is a handle and the level a number. -/
def SetLogger {γ ε : Type} (env : Env γ ε) (order : List (Int × γ)) (l : Nat) (lvl : Int)
    (s : Sys γ) : Sys γ :=
  (Each (fun p s1 => ((none : Option ε), (invoke env (.setLogger p l lvl) s1).2)) order s).2

/-- The method `Stop` up to its last statement: the broadcast through `Each`; the caller
then waits at `pp.stopChan <- struct{}{}`. -/
def Stop {γ ε : Type} (env : Env γ ε) (order : List (Int × γ)) (s : Sys γ) : Sys γ :=
  let s1 := (Each (fun p s1 => ((none : Option ε), (invoke env (.stop p) s1).2)) order s).2
  { s1 with stopWaiting := s1.stopWaiting + 1 }

/-- A method call on the connection `Next` returned; a nil connection panics. -/
def onNext {γ ε : Type} (env : Env γ ε) (mk : γ → Call γ) (s : Sys γ) :
    Outcome (Option ε × Sys γ) :=
  match Next s with
  | none => .blocked
  | some (none, _) => .panic
  | some (some p, s1) => .ret (invoke env (mk p) s1)

/-- The method `PublishAsync`.  The source passes `args`, not `args...`. -/
def PublishAsync {γ ε : Type} (env : Env γ ε) (topic : String) (body : Bytes) (doneChan : Nat)
    (args : List Value) (s : Sys γ) : Outcome (Option ε × Sys γ) :=
  onNext env (fun p => .publishAsync p topic body doneChan [Value.slice args]) s

/-- The method `MultiPublishAsync`.  The source passes `args`, not `args...`. -/
def MultiPublishAsync {γ ε : Type} (env : Env γ ε) (topic : String) (body : List Bytes)
    (doneChan : Nat) (args : List Value) (s : Sys γ) : Outcome (Option ε × Sys γ) :=
  onNext env (fun p => .multiPublishAsync p topic body doneChan [Value.slice args]) s

/-- The method `Publish`. -/
def Publish {γ ε : Type} (env : Env γ ε) (topic : String) (body : Bytes) (s : Sys γ) :
    Outcome (Option ε × Sys γ) :=
  onNext env (fun p => .publish p topic body) s

/-- The method `MultiPublish`. -/
def MultiPublish {γ ε : Type} (env : Env γ ε) (topic : String) (body : List Bytes)
    (s : Sys γ) : Outcome (Option ε × Sys γ) :=
  onNext env (fun p => .multiPublish p topic body) s

/-- The method `DeferredPublish`. -/
def DeferredPublish {γ ε : Type} (env : Env γ ε) (topic : String) (delay : Int) (body : Bytes)
    (s : Sys γ) : Outcome (Option ε × Sys γ) :=
  onNext env (fun p => .deferredPublish p topic delay body) s

/-- The method `DeferredPublishAsync`.  The source passes `args`, not `args...`. -/
def DeferredPublishAsync {γ ε : Type} (env : Env γ ε) (topic : String) (delay : Int)
    (body : Bytes) (doneChan : Nat) (args : List Value) (s : Sys γ) :
    Outcome (Option ε × Sys γ) :=
  onNext env (fun p => .deferredPublishAsync p topic delay body doneChan [Value.slice args]) s

/-! ## Interleavings -/

/-- The atomic steps of the goroutine `work` and of the callers. -/
inductive Action (γ : Type) where
  | workAdvance
  | workSend
  | workStop
  /-- A caller runs `Next`. -/
  | next
  /-- A caller runs `Stop` up to the send on `stopChan`; `order` is the order in which
  `range pp.pool` yields the entries. -/
  | callStop (order : List (Int × γ))

/-- One step; `none` when the action cannot happen in this state.  Nothing happens
after a panic.  `range` yields a permutation of the map's entries. -/
def step {γ ε : Type} [DecidableEq γ] (env : Env γ ε) (a : Action γ) (s : Sys γ) :
    Option (Sys γ) :=
  if s.pc = .panicked then none
  else
    match a with
    | .workAdvance => workAdvance s
    | .workSend => workSend s
    | .workStop => workStop s
    | .next => (Next s).map Prod.snd
    | .callStop order => if order.Perm s.pp.pool then some (Stop env order s) else none

/-- A run: the actions happen one after the other. -/
def run {γ ε : Type} [DecidableEq γ] (env : Env γ ε) : List (Action γ) → Sys γ → Option (Sys γ)
  | [], s => some s
  | a :: rest, s =>
    match step env a s with
    | none => none
    | some s1 => run env rest s1

/-- The values the calls of `Next` returned, in order. -/
def receivedOf {γ : Type} (tr : List (Event γ)) : List (Option γ) :=
  tr.filterMap fun ev => match ev with
    | .received v => some v
    | _ => none

/-- The values `work` sent on the handoff channel, in order. -/
def offeredOf {γ : Type} (tr : List (Event γ)) : List (Option γ) :=
  tr.filterMap fun ev => match ev with
    | .offered v => some v
    | _ => none

/-- An `Each` callback instrumented to record each invocation with its result. -/
def traced {γ ε σ : Type} (callback : γ → σ → Option ε × σ) (p : γ)
    (s : σ × List (γ × Option ε)) : Option ε × (σ × List (γ × Option ε)) :=
  ((callback p s.1).1, ((callback p s.1).2, s.2 ++ [(p, (callback p s.1).1)]))

/-- Whether an event is the stop signal. -/
def isStopSignal {γ : Type} : Event γ → Bool
  | .stopSignal => true
  | _ => false

/-- Whether an event is a method call on a connection. -/
def isCall {γ : Type} : Event γ → Bool
  | .call _ => true
  | _ => false

/-- Whether an action is a caller entering `Stop`. -/
def isCallStop {γ : Type} : Action γ → Bool
  | .callStop _ => true
  | _ => false

/-- The events that follow the first stop signal, that is, the first return of `Stop`. -/
def afterStop {γ : Type} (tr : List (Event γ)) : List (Event γ) :=
  (tr.dropWhile fun ev => !isStopSignal ev).drop 1

/-- The connection `work` sends at its `k`-th send (counting from 0) when the cursor
started at 0: the map read at `(k + 1) % N`. -/
def offer {γ : Type} (P : List (Int × γ)) (N : Nat) (k : Nat) : Option γ :=
  mapGet P (((k + 1) % N : Nat) : Int)

/-- What holds in every state a pool of `N` connections with map `P` can reach. -/
structure Inv {γ : Type} (P : List (Int × γ)) (N : Nat) (s : Sys γ) : Prop where
  pool_eq : s.pp.pool = P
  num_eq : s.pp.num = N
  cap_eq : s.pp.worker.cap = N
  alive : s.pc ≠ .panicked
  room : s.pp.worker.buf.length ≤ N
  /-- The handoff channel is first in, first out. -/
  fifo : offeredOf s.trace = receivedOf s.trace ++ s.pp.worker.buf
  /-- The sends follow the rotation. -/
  rotation : offeredOf s.trace = (List.range (offeredOf s.trace).length).map (offer P N)
  cursor_top : s.pc = .loopTop → s.pp.next = (((offeredOf s.trace).length % N : Nat) : Int)
  cursor_select :
    s.pc = .atSelect → s.pp.next = ((((offeredOf s.trace).length + 1) % N : Nat) : Int)
  stopped : 0 < s.stopsDone → s.pc = .returned

/-- The extra arguments a connection received in an asynchronous publish call. -/
def asyncArgs {γ : Type} : Event γ → Option (List Value)
  | .call (.publishAsync _ _ _ _ args) => some args
  | .call (.multiPublishAsync _ _ _ _ args) => some args
  | .call (.deferredPublishAsync _ _ _ _ _ args) => some args
  | _ => none

/-! ## Test doubles -/

/-- A library whose constructor always succeeds, naming the connection built at index
`i` by `i`, and whose connections never fail. -/
def envOk : Env Int String :=
  { newProducer := fun i _ _ => .ok i, respond := fun _ _ => none }

/-- A library whose constructor fails at index 2 and whose connection 1 fails every
`Ping` and every `Publish`. -/
def envBad : Env Int String :=
  { newProducer := fun i _ _ => if i = 2 then .error "dial" else .ok i,
    respond := fun _ c =>
      match c with
      | .ping p => if p = 1 then some "ping 1" else none
      | .publish p _ _ => if p = 1 then some "publish 1" else none
      | _ => none }

/-- A pool of one connection whose scheduler has staged its first offer. -/
def readyOne : Option (Sys Int) :=
  (start envOk "nsqd:4150" ⟨[]⟩ 1).bind (run envOk [.workAdvance, .workSend])

/-- A pool of two connections after the scheduler has staged two offers. -/
def stagedTwo : Sys Int :=
  { pp :=
      { pool := [(0, 0), (1, 1)], num := 2, addr := "nsqd:4150", config := ⟨[]⟩, next := 0,
        worker := ⟨2, [some 1, some 0]⟩, stopChan := ⟨0, []⟩ },
    pc := .loopTop,
    trace :=
      [.newProducer 0 "nsqd:4150" ⟨[]⟩, .newProducer 1 "nsqd:4150" ⟨[]⟩, .goWork,
        .offered (some 1), .offered (some 0)],
    stopWaiting := 0,
    stopsDone := 0 }

/-- A pool of two connections as `NewProducer` returns it. -/
def freshTwo : Sys Int :=
  { pp :=
      { pool := [(0, 0), (1, 1)], num := 2, addr := "nsqd:4150", config := ⟨[]⟩, next := 0,
        worker := ⟨2, []⟩, stopChan := ⟨0, []⟩ },
    pc := .loopTop,
    trace := [.newProducer 0 "nsqd:4150" ⟨[]⟩, .newProducer 1 "nsqd:4150" ⟨[]⟩, .goWork],
    stopWaiting := 0,
    stopsDone := 0 }

/-- A pool of two connections whose scheduler staged connections 1 and 0 before a call
of `Stop` ran to completion. -/
def stoppedTwo : Sys Int :=
  { pp :=
      { pool := [(0, 0), (1, 1)], num := 2, addr := "nsqd:4150", config := ⟨[]⟩, next := 1,
        worker := ⟨2, [some 1, some 0]⟩, stopChan := ⟨0, []⟩ },
    pc := .returned,
    trace :=
      [.newProducer 0 "nsqd:4150" ⟨[]⟩, .newProducer 1 "nsqd:4150" ⟨[]⟩, .goWork,
        .offered (some 1), .offered (some 0), .call (.stop 0), .call (.stop 1), .stopSignal],
    stopWaiting := 0,
    stopsDone := 1 }

/-! ## Broadcast -/

/-- Recording the invocations does not change what `Each` returns nor the state it
leaves. -/
theorem Each_traced_erase {γ ε σ : Type} (callback : γ → σ → Option ε × σ)
    (order : List (Int × γ)) (s : σ) (tr : List (γ × Option ε)) :
    Each callback order s =
      ((Each (traced callback) order (s, tr)).1, (Each (traced callback) order (s, tr)).2.1) := by
  induction order generalizing s tr with
  | nil => rfl
  | cons x rest ih =>
    obtain ⟨k, p⟩ := x
    simp only [Each, traced]
    rcases hcb : callback p s with ⟨_ | err, s1⟩
    · simp only []
      exact ih s1 _
    · rfl

/-- The invocations `Each` makes: either all entries, each with a nil result, or the entries up
to the first failing one. -/
theorem Each_traced_visits {γ ε σ : Type} (callback : γ → σ → Option ε × σ)
    (order : List (Int × γ)) (s : σ) (tr : List (γ × Option ε)) :
    ((Each (traced callback) order (s, tr)).1 = none ∧
        (Each (traced callback) order (s, tr)).2.2 =
          tr ++ order.map (fun x => (x.2, none))) ∨
      ∃ pre x post err, order = pre ++ x :: post ∧
        (Each (traced callback) order (s, tr)).1 = some err ∧
        (Each (traced callback) order (s, tr)).2.2 =
          tr ++ pre.map (fun x => (x.2, none)) ++ [(x.2, some err)] := by
  induction order generalizing s tr with
  | nil => left; simp [Each]
  | cons x rest ih =>
    obtain ⟨k, p⟩ := x
    rcases hcb : callback p s with ⟨_ | err, s1⟩
    · rcases ih s1 (tr ++ [(p, none)]) with ⟨h1, h2⟩ | ⟨pre, y, post, err, h0, h1, h2⟩
      · left
        simp only [Each, traced, hcb]
        exact ⟨h1, by rw [h2]; simp⟩
      · right
        refine ⟨(k, p) :: pre, y, post, err, by rw [h0]; rfl, ?_, ?_⟩
        · simp only [Each, traced, hcb]; exact h1
        · simp only [Each, traced, hcb]; rw [h2]; simp
    · right
      refine ⟨[], (k, p), rest, err, rfl, ?_, ?_⟩
      · simp only [Each, traced, hcb]
      · simp only [Each, traced, hcb]; simp

/-- Claim C2.  If during `Each` the callback returns the error `err` for the connection
`p`, then `Each` returns exactly `err`, and the invocations of the callback are exactly: one
on each entry that precedes `p` in the iteration, in order, each with a nil result, then the
one on `p`; no entry after `p` is visited. -/
theorem Each_short_circuit {γ ε σ : Type} (callback : γ → σ → Option ε × σ)
    (order : List (Int × γ)) (s : σ) (p : γ) (err : ε)
    (h : (p, some err) ∈ (Each (traced callback) order (s, [])).2.2) :
    (Each callback order s).1 = some err ∧
      ∃ pre x post, order = pre ++ x :: post ∧ x.2 = p ∧
        (Each (traced callback) order (s, [])).2.2 =
          pre.map (fun y => (y.2, none)) ++ [(p, some err)] := by
  rw [Each_traced_erase callback order s []]
  rcases Each_traced_visits callback order s [] with ⟨_, h2⟩ | ⟨pre, x, post, e2, h0, h1, h2⟩
  · rw [h2] at h
    simp at h
  · rw [h2] at h
    simp at h
    obtain ⟨rfl, rfl⟩ := h
    exact ⟨h1, pre, x, post, h0, rfl, by rw [h2]; simp⟩

/-- Connections 10, 11, 12 of which 11 fails with `"B"`: 12 is not visited. -/
theorem Each_short_circuit_witness :
    ((11 : Int), some "B") ∈
        (Each (traced fun (p : Int) (s : Nat) => (if p = 11 then some "B" else none, s + 1))
          [(0, 10), (1, 11), (2, 12)] (0, [])).2.2 ∧
      ((Each (fun (p : Int) (s : Nat) => (if p = 11 then some "B" else none, s + 1))
          [(0, 10), (1, 11), (2, 12)] 0).1 = some "B" ∧
        ∃ pre x post, [((0 : Int), (10 : Int)), (1, 11), (2, 12)] = pre ++ x :: post ∧
          x.2 = 11 ∧
          (Each (traced fun (p : Int) (s : Nat) => (if p = 11 then some "B" else none, s + 1))
            [(0, 10), (1, 11), (2, 12)] (0, [])).2.2 =
            pre.map (fun y => (y.2, none)) ++ [(11, some "B")]) :=
  ⟨by decide,
    Each_short_circuit (fun (p : Int) (s : Nat) => (if p = 11 then some "B" else none, s + 1))
      [(0, 10), (1, 11), (2, 12)] 0 11 "B" (by decide)⟩


/-- With a callback that never fails `Each` visits every entry and returns nil. -/
theorem Each_traced_ok {γ ε σ : Type} (callback : γ → σ → Option ε × σ)
    (hok : ∀ p s, (callback p s).1 = none)
    (order : List (Int × γ)) (s : σ) (tr : List (γ × Option ε)) :
    (Each (traced callback) order (s, tr)).1 = none ∧
      (Each (traced callback) order (s, tr)).2.2 = tr ++ order.map (fun x => (x.2, none)) := by
  induction order generalizing s tr with
  | nil => simp [Each]
  | cons x rest ih =>
    obtain ⟨k, p⟩ := x
    have h1 := hok p s
    rcases hcb : callback p s with ⟨r, s1⟩
    rw [hcb] at h1
    simp only at h1
    subst h1
    simp only [Each, traced, hcb]
    obtain ⟨h2, h3⟩ := ih s1 (tr ++ [(p, none)])
    exact ⟨h2, by rw [h3]; simp⟩

/-- Claim C10, amended.  `Each` with a callback that never fails returns nil and invokes
the callback exactly once on every connection of the pool, in the order `range` yields the
map entries; that order is some permutation of the pool, not a fixed one. -/
theorem Each_visits_all {γ ε σ : Type} (callback : γ → σ → Option ε × σ)
    (hok : ∀ p s, (callback p s).1 = none)
    (pool order : List (Int × γ)) (horder : order.Perm pool) (s : σ) :
    (Each callback order s).1 = none ∧
      (Each (traced callback) order (s, [])).2.2 = order.map (fun x => (x.2, none)) ∧
      ((Each (traced callback) order (s, [])).2.2.map Prod.fst).Perm (pool.map Prod.snd) := by
  obtain ⟨h1, h2⟩ := Each_traced_ok callback hok order s []
  refine ⟨?_, by simpa using h2, ?_⟩
  · rw [Each_traced_erase callback order s []]; exact h1
  · rw [h2]
    simp only [List.nil_append, List.map_map]
    exact horder.map _

/-- A pool of two connections visited in the order 11, 10. -/
theorem Each_visits_all_witness :
    (Each (fun (_ : Int) (s : Nat) => ((none : Option String), s + 1)) [(1, 11), (0, 10)] 0).1
        = none ∧
      (Each (traced fun (_ : Int) (s : Nat) => ((none : Option String), s + 1))
          [(1, 11), (0, 10)] (0, [])).2.2 =
        [((1, 11) : Int × Int), (0, 10)].map (fun x => (x.2, none)) ∧
      ((Each (traced fun (_ : Int) (s : Nat) => ((none : Option String), s + 1))
          [(1, 11), (0, 10)] (0, [])).2.2.map Prod.fst).Perm
        ([((0, 10) : Int × Int), (1, 11)].map Prod.snd) :=
  Each_visits_all (fun (_ : Int) (s : Nat) => ((none : Option String), s + 1))
    (fun _ _ => rfl) [(0, 10), (1, 11)] [(1, 11), (0, 10)] (List.Perm.swap _ _ _) 0

/-- Claim C10 as stated fails.  Two iterations over the same map of two connections may
yield the entries in different orders, and then two calls of `Each` visit the connections
in different orders. -/
theorem Each_order_not_fixed :
    ¬ ∀ (pool order1 order2 : List (Int × Int)), order1.Perm pool → order2.Perm pool →
      (Each (traced fun (_ : Int) (s : Unit) => ((none : Option String), s)) order1 ((), [])).2.2 =
      (Each (traced fun (_ : Int) (s : Unit) => ((none : Option String), s)) order2 ((), [])).2.2 := by
  intro h
  have h1 := h [(0, 10), (1, 11)] [(0, 10), (1, 11)] [(1, 11), (0, 10)] (List.Perm.refl _)
    (List.Perm.swap _ _ _)
  revert h1
  decide

/-- When every connection answers, `Ping` pings each entry once and returns nil. -/
theorem Ping_all_ok {γ ε : Type} (env : Env γ ε) (pr : γ → Option ε)
    (hpr : ∀ tr p, env.respond tr (.ping p) = pr p)
    (order : List (Int × γ)) (hok : ∀ x ∈ order, pr x.2 = none) (s : Sys γ) :
    Ping env order s =
      (none, { s with trace := s.trace ++ order.map (fun x => .call (.ping x.2)) }) := by
  induction order generalizing s with
  | nil => simp [Ping, Each]
  | cons x rest ih =>
    obtain ⟨k, p⟩ := x
    have h1 : env.respond s.trace (.ping p) = none := by
      rw [hpr]; exact hok (k, p) (List.mem_cons_self _ _)
    have h2 := ih (fun y hy => hok y (List.mem_cons_of_mem _ hy))
      { s with trace := s.trace ++ [.call (.ping p)] }
    simp only [Ping] at h2 ⊢
    simp only [Each, invoke, h1]
    rw [h2]
    simp

/-- When some connection fails, `Ping` returns the error of a failing connection. -/
theorem Ping_some_fails {γ ε : Type} (env : Env γ ε) (pr : γ → Option ε)
    (hpr : ∀ tr p, env.respond tr (.ping p) = pr p)
    (order : List (Int × γ)) (hbad : ∃ x ∈ order, pr x.2 ≠ none) (s : Sys γ) :
    ∃ x ∈ order, ∃ err, pr x.2 = some err ∧ (Ping env order s).1 = some err := by
  induction order generalizing s with
  | nil => simp at hbad
  | cons x rest ih =>
    obtain ⟨k, p⟩ := x
    rcases hp : pr p with _ | err
    · have hbad2 : ∃ y ∈ rest, pr y.2 ≠ none := by
        obtain ⟨y, hy, hne⟩ := hbad
        rcases List.mem_cons.1 hy with rfl | hy
        · exact absurd hp hne
        · exact ⟨y, hy, hne⟩
      obtain ⟨y, hy, err, h1, h2⟩ := ih hbad2 { s with trace := s.trace ++ [.call (.ping p)] }
      refine ⟨y, List.mem_cons_of_mem _ hy, err, h1, ?_⟩
      have h3 : env.respond s.trace (.ping p) = none := by rw [hpr]; exact hp
      simp only [Ping] at h2 ⊢
      simp only [Each, invoke, h3]
      exact h2
    · refine ⟨(k, p), List.mem_cons_self _ _, err, hp, ?_⟩
      have h3 : env.respond s.trace (.ping p) = some err := by rw [hpr]; exact hp
      simp only [Ping, Each, invoke, h3]

/-- Claim C9.  Let `pr p` be the outcome of `Ping` on the connection `p`.  `Ping` on the
pool returns a non-nil error iff some connection of the pool fails; an error it returns is
the error of a connection of the pool; and if every connection succeeds, each connection is
pinged exactly once, nothing else happens, and the result is nil. -/
theorem Ping_aggregates {γ ε : Type} (env : Env γ ε) (pr : γ → Option ε)
    (hpr : ∀ tr p, env.respond tr (.ping p) = pr p)
    (order : List (Int × γ)) (s : Sys γ) (horder : order.Perm s.pp.pool) :
    ((Ping env order s).1 ≠ none ↔ ∃ x ∈ s.pp.pool, pr x.2 ≠ none) ∧
      (∀ err, (Ping env order s).1 = some err → ∃ x ∈ s.pp.pool, pr x.2 = some err) ∧
      ((∀ x ∈ s.pp.pool, pr x.2 = none) →
        Ping env order s =
          (none, { s with trace := s.trace ++ order.map (fun x => .call (.ping x.2)) }) ∧
        (order.map Prod.snd).Perm (s.pp.pool.map Prod.snd)) := by
  by_cases hbad : ∃ x ∈ order, pr x.2 ≠ none
  · obtain ⟨x, hx, err, h1, h2⟩ := Ping_some_fails env pr hpr order hbad s
    refine ⟨?_, ?_, ?_⟩
    · rw [h2]
      simp only [ne_eq, reduceCtorEq, not_false_eq_true, true_iff]
      exact ⟨x, horder.mem_iff.1 hx, by rw [h1]; simp⟩
    · intro e he
      rw [h2] at he
      cases he
      exact ⟨x, horder.mem_iff.1 hx, h1⟩
    · intro hall
      have := hall x (horder.mem_iff.1 hx)
      rw [h1] at this
      cases this
  · have hall : ∀ x ∈ order, pr x.2 = none := by
      intro x hx
      by_contra hne
      exact hbad ⟨x, hx, hne⟩
    have h1 := Ping_all_ok env pr hpr order hall s
    refine ⟨?_, ?_, ?_⟩
    · rw [h1]
      simp only [ne_eq, not_true_eq_false, false_iff]
      rintro ⟨x, hx, hne⟩
      exact hne (hall x (horder.mem_iff.2 hx))
    · intro e he
      rw [h1] at he
      cases he
    · intro _
      exact ⟨h1, horder.map _⟩

/-- A pool of two connections of which connection 1 fails its `Ping`. -/
theorem Ping_aggregates_witness :
    ((∀ (tr : List (Event Int)) (p : Int),
        envBad.respond tr (.ping p) = if p = 1 then some "ping 1" else none) ∧
      [((1 : Int), (1 : Int)), (0, 0)].Perm stagedTwo.pp.pool) ∧
    (Ping envBad [(1, 1), (0, 0)] stagedTwo).1 = some "ping 1" ∧
    ((Ping envBad [(1, 1), (0, 0)] stagedTwo).1 ≠ none ↔
      ∃ x ∈ stagedTwo.pp.pool, (if x.2 = 1 then some "ping 1" else none) ≠ none) :=
  ⟨⟨fun _ _ => rfl, List.Perm.swap _ _ _⟩, rfl,
    (Ping_aggregates envBad (fun p => if p = 1 then some "ping 1" else none) (fun _ _ => rfl)
      [(1, 1), (0, 0)] stagedTwo (List.Perm.swap _ _ _)).1⟩

/-- Claim C3.  With the connection `p` at the head of the handoff channel, `Publish`,
`MultiPublish` and `DeferredPublish` each take exactly that one connection from `Next`, call
the method of the same name on it exactly once with the very same arguments, return exactly
what that call returns, and call nothing else. -/
theorem Publish_delegates {γ ε : Type} (env : Env γ ε) (s : Sys γ) (p : γ)
    (rest : List (Option γ)) (hbuf : s.pp.worker.buf = some p :: rest) :
    (∀ topic body, Publish env topic body s =
      .ret (env.respond (s.trace ++ [.received (some p)]) (.publish p topic body),
        { s with
          pp := { s.pp with worker := { s.pp.worker with buf := rest } },
          trace := s.trace ++ [.received (some p)] ++ [.call (.publish p topic body)] })) ∧
    (∀ topic bodies, MultiPublish env topic bodies s =
      .ret (env.respond (s.trace ++ [.received (some p)]) (.multiPublish p topic bodies),
        { s with
          pp := { s.pp with worker := { s.pp.worker with buf := rest } },
          trace := s.trace ++ [.received (some p)] ++ [.call (.multiPublish p topic bodies)] })) ∧
    (∀ topic delay body, DeferredPublish env topic delay body s =
      .ret (env.respond (s.trace ++ [.received (some p)]) (.deferredPublish p topic delay body),
        { s with
          pp := { s.pp with worker := { s.pp.worker with buf := rest } },
          trace := s.trace ++ [.received (some p)] ++
            [.call (.deferredPublish p topic delay body)] })) := by
  refine ⟨?_, ?_, ?_⟩
  · intro topic body
    simp only [Publish, onNext, Next, hbuf, invoke]
  · intro topic bodies
    simp only [MultiPublish, onNext, Next, hbuf, invoke]
  · intro topic delay body
    simp only [DeferredPublish, onNext, Next, hbuf, invoke]

/-- A pool whose next offer is connection 1, whose `Publish` fails: the failure is
returned as it is and connection 0 stays in the channel. -/
theorem Publish_delegates_witness :
    stagedTwo.pp.worker.buf = some 1 :: [some 0] ∧
      Publish envBad "t" [1, 2] stagedTwo =
        .ret (some "publish 1",
          { stagedTwo with
            pp := { stagedTwo.pp with worker := { stagedTwo.pp.worker with buf := [some 0] } },
            trace := stagedTwo.trace ++ [.received (some 1)] ++
              [.call (.publish 1 "t" [1, 2])] }) :=
  ⟨rfl, (Publish_delegates envBad stagedTwo 1 [some 0] rfl).1 "t" [1, 2]⟩


/-! ## Construction -/

/-- A map write at a key the map does not hold adds one entry. -/
theorem mapSet_fresh {γ : Type} (m : List (Int × γ)) (i : Int) (v : γ)
    (h : ∀ x ∈ m, x.1 ≠ i) : mapSet m i v = m ++ [(i, v)] := by
  induction m with
  | nil => rfl
  | cons x rest ih =>
    obtain ⟨k, w⟩ := x
    have hk : k ≠ i := h (k, w) (List.mem_cons_self _ _)
    simp only [mapSet, hk, if_false, List.cons_append]
    rw [ih (fun y hy => h y (List.mem_cons_of_mem _ hy))]

/-- An error returned by the construction loop is the error of one of its constructor calls. -/
theorem newLoop_error {γ ε : Type} (env : Env γ ε) (addr : String) (config : Config)
    (num : Int) (fuel : Nat) (i : Int) (p : List (Int × γ)) (tr : List (Event γ))
    (err : ε) (h : (newLoop env addr config num fuel i p tr).2 = .error err) :
    ∃ j, i ≤ j ∧ j < num ∧ env.newProducer j addr config = .error err := by
  induction fuel generalizing i p tr with
  | zero => simp [newLoop] at h
  | succ fuel ih =>
    simp only [newLoop] at h
    split at h
    · rename_i hlt
      split at h
      · rename_i e2 he
        simp only [Except.error.injEq] at h
        subst h
        exact ⟨i, le_refl _, hlt, he⟩
      · obtain ⟨j, h1, h2, h3⟩ := ih _ _ _ h
        exact ⟨j, by omega, h2, h3⟩
    · simp at h

/-- The construction loop when every constructor call succeeds: one call per index, one map
entry per call. -/
theorem newLoop_ok {γ ε : Type} (env : Env γ ε) (addr : String) (config : Config)
    (num : Int) (c : Nat → γ) (fuel : Nat) (i : Nat) (p : List (Int × γ))
    (tr : List (Event γ)) (hnum : (i : Int) + fuel = num) (hp : ∀ x ∈ p, x.1 < (i : Int))
    (hc : ∀ j, i ≤ j → j < i + fuel → env.newProducer (j : Int) addr config = .ok (c j)) :
    newLoop env addr config num fuel i p tr =
      (tr ++ (List.range' i fuel).map (fun (j : Nat) => Event.newProducer (j : Int) addr config),
        .ok (p ++ (List.range' i fuel).map (fun (j : Nat) => ((j : Int), c j)))) := by
  induction fuel generalizing i p tr with
  | zero => simp [newLoop]
  | succ fuel ih =>
    have hlt : (i : Int) < num := by omega
    have hci := hc i (le_refl _) (by omega)
    simp only [newLoop, hlt, if_true, hci]
    have hfresh : mapSet p (i : Int) (c i) = p ++ [((i : Int), c i)] :=
      mapSet_fresh p i (c i) (fun x hx => by have := hp x hx; omega)
    rw [hfresh]
    have := ih (i + 1) (p ++ [((i : Int), c i)]) (tr ++ [Event.newProducer (i : Int) addr config])
      (by push_cast; omega)
      (by
        intro x hx
        rcases List.mem_append.1 hx with hx | hx
        · have := hp x hx; push_cast; omega
        · simp only [List.mem_singleton] at hx; subst hx; push_cast; simp)
      (fun j h1 h2 => hc j (by omega) (by omega))
    push_cast at this
    rw [this]
    simp [List.range'_succ]

/-- The construction loop when the constructor first fails `d` indices after `i`: it stops
right there. -/
theorem newLoop_fail {γ ε : Type} (env : Env γ ε) (addr : String) (config : Config)
    (num : Int) (c : Nat → γ) (err : ε) (d : Nat) (fuel : Nat) (i : Nat) (p : List (Int × γ))
    (tr : List (Event γ)) (hfuel : d < fuel) (hnum : ((i + d : Nat) : Int) < num)
    (hc : ∀ j, i ≤ j → j < i + d → env.newProducer (j : Int) addr config = .ok (c j))
    (herr : env.newProducer ((i + d : Nat) : Int) addr config = .error err) :
    newLoop env addr config num fuel i p tr =
      (tr ++ (List.range' i (d + 1)).map (fun (j : Nat) => Event.newProducer (j : Int) addr config),
        .error err) := by
  induction d generalizing fuel i p tr with
  | zero =>
    obtain ⟨fuel, rfl⟩ : ∃ f, fuel = f + 1 := ⟨fuel - 1, by omega⟩
    simp only [Nat.add_zero] at hnum herr
    simp [newLoop, hnum, herr]
  | succ d ih =>
    obtain ⟨fuel, rfl⟩ : ∃ f, fuel = f + 1 := ⟨fuel - 1, by omega⟩
    have hlt : (i : Int) < num := by push_cast at hnum; omega
    have hci := hc i (le_refl _) (by omega)
    simp only [newLoop, hlt, if_true, hci]
    have := ih fuel (i + 1) (mapSet p (i : Int) (c i))
      (tr ++ [Event.newProducer (i : Int) addr config]) (by omega)
      (by rw [show i + 1 + d = i + (d + 1) by omega]; exact hnum)
      (fun j h1 h2 => hc j (by omega) (by omega))
      (by rw [show i + 1 + d = i + (d + 1) by omega]; exact herr)
    push_cast at this
    rw [this]
    simp [List.range'_succ (s := i) (n := d + 1)]

/-- A map returned by the construction loop has gained one entry per iteration. -/
theorem newLoop_length {γ ε : Type} (env : Env γ ε) (addr : String) (config : Config)
    (num : Int) (fuel : Nat) (i : Nat) (p q : List (Int × γ)) (tr : List (Event γ))
    (hnum : (i : Int) + fuel = num) (hp : ∀ x ∈ p, x.1 < (i : Int))
    (h : (newLoop env addr config num fuel i p tr).2 = .ok q) :
    q.length = p.length + fuel := by
  induction fuel generalizing i p tr with
  | zero => simp [newLoop] at h; subst h; simp
  | succ fuel ih =>
    have hlt : (i : Int) < num := by omega
    simp only [newLoop, hlt, if_true] at h
    split at h
    · simp at h
    · rename_i v hv
      have hfresh : mapSet p (i : Int) v = p ++ [((i : Int), v)] :=
        mapSet_fresh p i v (fun x hx => by have := hp x hx; omega)
      rw [hfresh] at h
      have := ih (i + 1) (p ++ [((i : Int), v)]) _ (by push_cast; omega)
        (by
          intro x hx
          rcases List.mem_append.1 hx with hx | hx
          · have := hp x hx; push_cast; omega
          · simp only [List.mem_singleton] at hx; subst hx; push_cast; simp)
        (by push_cast; exact h)
      rw [this]; simp; omega

/-- The construction loop performs no channel operation. -/
theorem newLoop_received {γ ε : Type} (env : Env γ ε) (addr : String) (config : Config)
    (num : Int) (fuel : Nat) (i : Int) (p : List (Int × γ)) (tr : List (Event γ)) :
    receivedOf (newLoop env addr config num fuel i p tr).1 = receivedOf tr ∧
      offeredOf (newLoop env addr config num fuel i p tr).1 = offeredOf tr := by
  induction fuel generalizing i p tr with
  | zero => simp [newLoop]
  | succ fuel ih =>
    simp only [newLoop]
    split
    · split
      · simp [receivedOf, offeredOf, List.filterMap_append]
      · obtain ⟨h1, h2⟩ := ih (i + 1) (mapSet p i _) (tr ++ [Event.newProducer i addr config])
        rw [h1, h2]
        simp [receivedOf, offeredOf, List.filterMap_append]
    · simp

/-- Reading the map that the construction loop builds. -/
theorem mapGet_range' {γ : Type} (c : Nat → γ) (n a j : Nat) (h1 : a ≤ j) (h2 : j < a + n) :
    mapGet ((List.range' a n).map (fun (i : Nat) => ((i : Int), c i))) (j : Int) = some (c j) := by
  induction n generalizing a with
  | zero => omega
  | succ n ih =>
    simp only [List.range'_succ, List.map_cons, mapGet]
    by_cases h : a = j
    · subst h; simp
    · have : ¬ ((a : Int) = (j : Int)) := by omega
      simp only [this, if_false]
      exact ih (a + 1) (by omega) (by omega)

/-- The result of `NewProducer` when every constructor call succeeds. -/
theorem NewProducer_ok {γ ε : Type} (env : Env γ ε) (addr : String) (config : Config)
    (N : Nat) (c : Nat → γ) (hc : ∀ i < N, env.newProducer (i : Int) addr config = .ok (c i)) :
    NewProducer env addr config N =
      ((List.range N).map (fun (i : Nat) => Event.newProducer (i : Int) addr config) ++ [.goWork],
        .ret (some
          { pool := (List.range N).map (fun (i : Nat) => ((i : Int), c i)), num := N,
            addr := addr, config := config, next := 0, worker := ⟨N, []⟩,
            stopChan := ⟨0, []⟩ }, none)) := by
  have h := newLoop_ok env addr config N c N 0 [] [] (by simp) (by simp)
    (fun j _ h2 => hc j (by omega))
  simp only [Nat.cast_zero, List.nil_append] at h
  simp only [NewProducer, Int.toNat_ofNat, h]
  have : ¬ ((N : Int) < 0) := by omega
  simp [this, List.range_eq_range']

/-- Claim C7.  If the constructor succeeds at the indices `0 .. k - 1` and fails with
`err` at index `k < N`, then `NewProducer` returns no pool and the error `err`; the
constructor was called at the indices `0 .. k` and at no other, and no scheduling task was
started.  If it succeeds at all `N` indices, `NewProducer` returns a pool and a nil error,
after `N` constructor calls and one `go pp.work()`. -/
theorem NewProducer_atomic {γ ε : Type} (env : Env γ ε) (addr : String) (config : Config)
    (N : Nat) (c : Nat → γ) :
    (∀ k err, k < N → (∀ i < k, env.newProducer (i : Int) addr config = .ok (c i)) →
      env.newProducer (k : Int) addr config = .error err →
      NewProducer env addr config N =
          ((List.range (k + 1)).map (fun (i : Nat) => Event.newProducer (i : Int) addr config),
            .ret (none, some err)) ∧
        start env addr config N = none) ∧
    ((∀ i < N, env.newProducer (i : Int) addr config = .ok (c i)) →
      NewProducer env addr config N =
        ((List.range N).map (fun (i : Nat) => Event.newProducer (i : Int) addr config) ++
            [.goWork],
          .ret (some
            { pool := (List.range N).map (fun (i : Nat) => ((i : Int), c i)), num := N,
              addr := addr, config := config, next := 0, worker := ⟨N, []⟩,
              stopChan := ⟨0, []⟩ }, none))) := by
  refine ⟨?_, NewProducer_ok env addr config N c⟩
  intro k err hk hc herr
  have h := newLoop_fail env addr config N c err k N 0 [] [] hk (by simp; omega)
    (fun j _ h2 => hc j (by omega)) (by simpa using herr)
  simp only [Nat.cast_zero, List.nil_append] at h
  have h2 : NewProducer env addr config N =
      ((List.range (k + 1)).map (fun (i : Nat) => Event.newProducer (i : Int) addr config),
        .ret (none, some err)) := by
    simp only [NewProducer, Int.toNat_ofNat, h, List.range_eq_range']
  exact ⟨h2, by simp only [start, h2]⟩

/-- Three connections asked for, the constructor failing at index 2. -/
theorem NewProducer_atomic_witness :
    (2 < 3 ∧ (∀ i < 2, envBad.newProducer ((i : Nat) : Int) "nsqd:4150" ⟨[]⟩ = .ok (i : Int)) ∧
      envBad.newProducer ((2 : Nat) : Int) "nsqd:4150" ⟨[]⟩ = .error "dial") ∧
    (NewProducer envBad "nsqd:4150" ⟨[]⟩ ((3 : Nat) : Int) =
        ((List.range (2 + 1)).map
          (fun (i : Nat) => Event.newProducer (i : Int) "nsqd:4150" ⟨[]⟩),
          .ret (none, some "dial")) ∧
      start envBad "nsqd:4150" ⟨[]⟩ ((3 : Nat) : Int) = none) :=
  ⟨⟨by decide, by intro i hi; simp [envBad]; omega, rfl⟩,
    (NewProducer_atomic envBad "nsqd:4150" ⟨[]⟩ 3 (fun i => (i : Int))).1 2 "dial" (by decide)
      (by intro i hi; simp [envBad]; omega) rfl⟩

/-- The state in which a pool starts. -/
theorem start_spec {γ ε : Type} (env : Env γ ε) (addr : String) (config : Config)
    (N : Int) (s0 : Sys γ) (h : start env addr config N = some s0) :
    0 ≤ N ∧ (s0.pp.pool.length : Int) = N ∧ s0.pp.num = N ∧ s0.pp.worker = ⟨N, []⟩ ∧
      s0.pp.next = 0 ∧ s0.pc = .loopTop ∧ s0.stopWaiting = 0 ∧ s0.stopsDone = 0 ∧
      receivedOf s0.trace = [] ∧ offeredOf s0.trace = [] := by
  simp only [start, NewProducer] at h
  rcases hl : newLoop env addr config N N.toNat 0 [] [] with ⟨tr, _ | p⟩
  · simp [hl] at h
  · simp only [hl] at h
    by_cases hneg : N < 0
    · simp [hneg] at h
    · simp only [hneg, if_false, Option.some.injEq] at h
      subst h
      have hlen := newLoop_length env addr config N N.toNat 0 [] p [] (by simp; omega)
        (by simp) (by rw [Nat.cast_zero, hl])
      have hrec := newLoop_received env addr config N N.toNat 0 [] []
      rw [hl] at hrec
      simp only at hrec
      refine ⟨by omega, ?_, rfl, rfl, rfl, rfl, rfl, rfl, ?_, ?_⟩
      · simp only [hlen, List.length_nil, zero_add]; omega
      · simp only [receivedOf, List.filterMap_append] at hrec ⊢
        rw [hrec.1]; rfl
      · simp only [offeredOf, List.filterMap_append] at hrec ⊢
        rw [hrec.2]; rfl

/-! ## The scheduling loop -/

/-- The broadcast of `Stop` calls `stop` once on every entry, in iteration order, and
changes nothing else. -/
theorem Each_stop_trace {γ ε : Type} (env : Env γ ε) (order : List (Int × γ)) (s : Sys γ) :
    (Each (fun p s1 => ((none : Option ε), (invoke env (.stop p) s1).2)) order s).2 =
      { s with trace := s.trace ++ order.map (fun x => Event.call (.stop x.2)) } := by
  induction order generalizing s with
  | nil => simp [Each]
  | cons x rest ih =>
    obtain ⟨k, p⟩ := x
    simp only [Each]
    rw [ih]
    simp [invoke]

/-- The effect of `Stop` up to its send on `stopChan`. -/
theorem Stop_eq {γ ε : Type} (env : Env γ ε) (order : List (Int × γ)) (s : Sys γ) :
    Stop env order s =
      { s with trace := s.trace ++ order.map (fun x => Event.call (.stop x.2)),
               stopWaiting := s.stopWaiting + 1 } := by
  simp only [Stop, Each_stop_trace]

/-- The received values of a concatenated trace. -/
theorem receivedOf_append {γ : Type} (a b : List (Event γ)) :
    receivedOf (a ++ b) = receivedOf a ++ receivedOf b := by
  simp [receivedOf, List.filterMap_append]

/-- The offered values of a concatenated trace. -/
theorem offeredOf_append {γ : Type} (a b : List (Event γ)) :
    offeredOf (a ++ b) = offeredOf a ++ offeredOf b := by
  simp [offeredOf, List.filterMap_append]

/-- Method calls on connections are no channel operations. -/
theorem receivedOf_calls {γ : Type} (cs : List (Call γ)) :
    receivedOf (cs.map Event.call) = [] ∧ offeredOf (cs.map Event.call) = [] := by
  induction cs with
  | nil => exact ⟨rfl, rfl⟩
  | cons c rest ih =>
    obtain ⟨h1, h2⟩ := ih
    simp only [receivedOf, offeredOf] at h1 h2 ⊢
    simp [List.filterMap_cons, h1, h2]

/-- The broadcast of `Stop` leaves the pool, the scheduler and the handoff history as they are.
-/
theorem Stop_projections {γ ε : Type} (env : Env γ ε) (order : List (Int × γ))
    (s : Sys γ) :
    receivedOf (Stop env order s).trace = receivedOf s.trace ∧
      offeredOf (Stop env order s).trace = offeredOf s.trace ∧
      (Stop env order s).pp = s.pp ∧ (Stop env order s).pc = s.pc ∧
      (Stop env order s).stopsDone = s.stopsDone ∧
      (Stop env order s).stopWaiting = s.stopWaiting + 1 := by
  rw [Stop_eq]
  have h := receivedOf_calls (order.map (fun x => Call.stop x.2))
  simp only [List.map_map] at h
  refine ⟨?_, ?_, rfl, rfl, rfl, rfl⟩
  · simp only [receivedOf_append]
    have := h.1
    simp only [Function.comp_def] at this
    rw [this]; simp
  · simp only [offeredOf_append]
    have := h.2
    simp only [Function.comp_def] at this
    rw [this]; simp

/-- Every step preserves the invariant of a pool of at least one connection. -/
theorem Inv_step {γ ε : Type} [DecidableEq γ] (env : Env γ ε) (P : List (Int × γ)) (N : Nat)
    (hN : 1 ≤ N) (a : Action γ) (s s1 : Sys γ) (hinv : Inv P N s)
    (hstep : step env a s = some s1) : Inv P N s1 := by
  obtain ⟨h1, h2, h3, h4, h5, h6, h7, h8, h9, h10⟩ := hinv
  cases a with
  | workAdvance =>
    simp only [step, h4, if_false, workAdvance] at hstep
    split at hstep
    · rename_i hpc
      have hne : s.pp.num ≠ 0 := by rw [h2]; omega
      simp only [hne, if_false, Option.some.injEq] at hstep
      subst hstep
      refine ⟨h1, h2, h3, by simp, h5, h6, h7, by simp, ?_, ?_⟩
      · intro _
        simp only
        rw [h8 hpc, h2]
        rw [show ((((offeredOf s.trace).length % N : Nat) : Int) + 1) =
          (((offeredOf s.trace).length % N + 1 : Nat) : Int) by push_cast; rfl]
        rw [← Int.ofNat_tmod, Nat.add_mod (offeredOf s.trace).length 1 N]
        simp
      · intro h
        have := h10 h
        rw [hpc] at this
        cases this
    · cases hstep
  | workSend =>
    simp only [step, h4, if_false, workSend] at hstep
    split at hstep
    · rename_i hcond
      obtain ⟨hpc, hroom⟩ := hcond
      simp only [Option.some.injEq] at hstep
      subst hstep
      have hnext := h9 hpc
      have hoff : offeredOf (s.trace ++ [Event.offered (mapGet s.pp.pool s.pp.next)]) =
          offeredOf s.trace ++ [mapGet s.pp.pool s.pp.next] := by
        simp [offeredOf, List.filterMap_append]
      have hrec : receivedOf (s.trace ++ [Event.offered (mapGet s.pp.pool s.pp.next)]) =
          receivedOf s.trace := by
        simp [receivedOf, List.filterMap_append]
      refine ⟨h1, h2, h3, by simp, ?_, ?_, ?_, ?_, by simp, ?_⟩
      · simp only [List.length_append, List.length_singleton]
        rw [h3] at hroom
        omega
      · simp only [hoff, hrec, h6, List.append_assoc]
      · simp only [hoff, List.length_append, List.length_singleton, List.range_succ,
          List.map_append, List.map_cons, List.map_nil]
        rw [← h7]
        simp only [offer, h1, hnext]
      · intro _
        simp only [hoff, List.length_append, List.length_singleton]
        exact hnext
      · intro h
        have := h10 h
        rw [hpc] at this
        cases this
    · cases hstep
  | workStop =>
    simp only [step, h4, if_false, workStop] at hstep
    split at hstep
    · rename_i hcond
      simp only [Option.some.injEq] at hstep
      subst hstep
      have hoff : offeredOf (s.trace ++ [Event.stopSignal]) = offeredOf s.trace := by
        simp [offeredOf, List.filterMap_append]
      have hrec : receivedOf (s.trace ++ [Event.stopSignal]) = receivedOf s.trace := by
        simp [receivedOf, List.filterMap_append]
      refine ⟨h1, h2, h3, by simp, h5, ?_, ?_, by simp, by simp, by simp⟩
      · simp only [hoff, hrec, h6]
      · simp only [hoff]; exact h7
    · cases hstep
  | next =>
    simp only [step, h4, if_false, Next] at hstep
    rcases hbuf : s.pp.worker.buf with _ | ⟨v, rest⟩
    · simp [hbuf] at hstep
    · simp only [hbuf, Option.map_some', Option.some.injEq] at hstep
      subst hstep
      have hoff : offeredOf (s.trace ++ [Event.received v]) = offeredOf s.trace := by
        simp [offeredOf, List.filterMap_append]
      have hrec : receivedOf (s.trace ++ [Event.received v]) = receivedOf s.trace ++ [v] := by
        simp [receivedOf, List.filterMap_append]
      refine ⟨h1, h2, h3, h4, ?_, ?_, ?_, ?_, ?_, h10⟩
      · simp only
        rw [hbuf] at h5
        simp only [List.length_cons] at h5
        omega
      · simp only [hoff, hrec, h6, hbuf, List.append_assoc, List.singleton_append]
      · simp only [hoff]; exact h7
      · simp only [hoff]; exact h8
      · simp only [hoff]; exact h9
  | callStop order =>
    simp only [step, h4, if_false] at hstep
    split at hstep
    · simp only [Option.some.injEq] at hstep
      subst hstep
      obtain ⟨e1, e2, e3, e4, e5, e6⟩ := Stop_projections env order s
      refine ⟨?_, ?_, ?_, ?_, ?_, ?_, ?_, ?_, ?_, ?_⟩
      · rw [e3]; exact h1
      · rw [e3]; exact h2
      · rw [e3]; exact h3
      · rw [e4]; exact h4
      · rw [e3]; exact h5
      · rw [e1, e2, e3]; exact h6
      · rw [e2]; exact h7
      · rw [e2, e3, e4]; exact h8
      · rw [e2, e3, e4]; exact h9
      · rw [e4, e5]; exact h10
    · cases hstep

/-- Every run preserves the invariant. -/
theorem Inv_run {γ ε : Type} [DecidableEq γ] (env : Env γ ε) (P : List (Int × γ)) (N : Nat)
    (hN : 1 ≤ N) (acts : List (Action γ)) (s s1 : Sys γ) (hinv : Inv P N s)
    (hrun : run env acts s = some s1) : Inv P N s1 := by
  induction acts generalizing s with
  | nil => simp only [run, Option.some.injEq] at hrun; subst hrun; exact hinv
  | cons a rest ih =>
    simp only [run] at hrun
    rcases hs : step env a s with _ | s2
    · simp [hs] at hrun
    · simp only [hs] at hrun
      exact ih s2 (Inv_step env P N hN a s s2 hinv hs) hrun

/-- A freshly built pool satisfies the invariant. -/
theorem Inv_start {γ ε : Type} (env : Env γ ε) (addr : String) (config : Config)
    (N : Nat) (s0 : Sys γ) (h : start env addr config N = some s0) :
    Inv s0.pp.pool N s0 := by
  obtain ⟨_, _, h2, h3, h4, h5, h6, h7, h8, h9⟩ := start_spec env addr config N s0 h
  refine ⟨rfl, h2, by rw [h3], by rw [h5]; simp, by rw [h3]; simp, ?_, ?_, ?_, ?_, ?_⟩
  · rw [h8, h9, h3]; rfl
  · rw [h9]; rfl
  · intro _; rw [h9, h4]; simp
  · intro hpc; rw [h5] at hpc; cases hpc
  · intro hpos; omega

/-- Counting over `1, ..., n` against counting over `0, ..., n - 1`. -/
theorem countP_shift (p : Nat → Bool) (n : Nat) :
    List.countP p ((List.range n).map Nat.succ) + (if p 0 then 1 else 0) =
      List.countP p (List.range n) + (if p n then 1 else 0) := by
  have h1 : List.countP p (List.range (n + 1)) =
      List.countP p ((List.range n).map Nat.succ) + (if p 0 then 1 else 0) := by
    rw [List.range_succ_eq_map, List.countP_cons]
  have h2 : List.countP p (List.range (n + 1)) =
      List.countP p (List.range n) + (if p n then 1 else 0) := by
    rw [List.range_succ, List.countP_append, List.countP_cons, List.countP_nil]
    simp
  omega

/-- Among `N` consecutive numbers exactly one has a given remainder modulo `N`. -/
theorem countP_mod_window (N : Nat) (i : Nat) (hi : i < N) (a : Nat) :
    List.countP (fun t => decide ((a + t) % N = i)) (List.range N) = 1 := by
  induction a with
  | zero =>
    have h1 : List.countP (fun t => decide ((0 + t) % N = i)) (List.range N) =
        List.countP (fun t => t == i) (List.range N) := by
      apply List.countP_congr
      intro t ht
      have : t < N := List.mem_range.1 ht
      simp [Nat.mod_eq_of_lt this]
    rw [h1]
    exact List.count_eq_one_of_mem (List.nodup_range N) (List.mem_range.2 hi)
  | succ a ih =>
    have h := countP_shift (fun t => decide ((a + t) % N = i)) N
    have h0 : List.countP (fun t => decide ((a + t) % N = i)) ((List.range N).map Nat.succ) =
        List.countP (fun t => decide ((a + 1 + t) % N = i)) (List.range N) := by
      rw [List.countP_map]
      apply List.countP_congr
      intro t _
      simp only [Function.comp, Nat.succ_eq_add_one]
      rw [show a + (t + 1) = a + 1 + t by omega]
    rw [h0, ih] at h
    simp only [Nat.add_zero, Nat.add_mod_right] at h
    omega

/-- Among `2 * N` consecutive numbers exactly two have a given remainder modulo `N`. -/
theorem countP_mod_two_windows (N : Nat) (i : Nat) (hi : i < N) (a : Nat) :
    List.countP (fun t => decide ((a + t) % N = i)) (List.range (2 * N)) = 2 := by
  have hsplit : List.range (2 * N) = List.range N ++ (List.range N).map (fun t => N + t) := by
    rw [two_mul, List.range_add]
  rw [hsplit, List.countP_append, List.countP_map, countP_mod_window N i hi a]
  have : List.countP ((fun t => decide ((a + t) % N = i)) ∘ fun t => N + t) (List.range N) =
      List.countP (fun t => decide ((a + t) % N = i)) (List.range N) := by
    apply List.countP_congr
    intro t _
    simp only [Function.comp]
    rw [show a + (N + t) = a + t + N by omega, Nat.add_mod_right]
  rw [this, countP_mod_window N i hi a]

/-- Running two lists of actions in sequence. -/
theorem run_append {γ ε : Type} [DecidableEq γ] (env : Env γ ε) (a b : List (Action γ))
    (s : Sys γ) : run env (a ++ b) s = (run env a s).bind (run env b) := by
  induction a generalizing s with
  | nil => rfl
  | cons x rest ih =>
    simp only [List.cons_append, run]
    rcases step env x s with _ | s1
    · rfl
    · exact ih s1

/-- The values the calls of `Next` returned follow the rotation. -/
theorem received_prefix {γ : Type} (P : List (Int × γ)) (N : Nat) (s : Sys γ)
    (hinv : Inv P N s) :
    receivedOf s.trace = (List.range (receivedOf s.trace).length).map (offer P N) := by
  have h1 := hinv.fifo
  have h2 := hinv.rotation
  have h3 : receivedOf s.trace = (offeredOf s.trace).take (receivedOf s.trace).length := by
    rw [h1]; simp
  have hle : (receivedOf s.trace).length ≤ (offeredOf s.trace).length := by
    rw [h1]; simp
  conv_lhs => rw [h3, h2]
  rw [← List.map_take, List.take_range, min_eq_left hle]

/-- A window of a list given by a function on positions. -/
theorem window_eq {α : Type} (f : Nat → α) (r j n : Nat) (h : j + n ≤ r) :
    (((List.range r).map f).drop j).take n = (List.range n).map (fun t => f (j + t)) := by
  apply List.ext_getElem
  · simp; omega
  · intro t h1 h2
    simp

/-- With an empty buffer and the scheduler at the loop top, one offer and one call of `Next`
can take place. -/
theorem round_step {γ ε : Type} [DecidableEq γ] (env : Env γ ε) (P : List (Int × γ))
    (N : Nat) (hN : 1 ≤ N) (s : Sys γ) (hinv : Inv P N s) (hpc : s.pc = .loopTop)
    (hbuf : s.pp.worker.buf = []) :
    ∃ s1, run env [.workAdvance, .workSend, .next] s = some s1 ∧ s1.pc = .loopTop ∧
      s1.pp.worker.buf = [] ∧
      (receivedOf s1.trace).length = (receivedOf s.trace).length + 1 := by
  have hnum : s.pp.num ≠ 0 := by rw [hinv.num_eq]; omega
  have hcap : (0 : Int) < s.pp.worker.cap := by rw [hinv.cap_eq]; omega
  have h : run env [.workAdvance, .workSend, .next] s = some
      { s with
        pp := { s.pp with
          next := Int.tmod (s.pp.next + 1) s.pp.num,
          worker := { s.pp.worker with buf := [] } },
        pc := .loopTop,
        trace := s.trace ++
          [.offered (mapGet s.pp.pool (Int.tmod (s.pp.next + 1) s.pp.num))] ++
          [.received (mapGet s.pp.pool (Int.tmod (s.pp.next + 1) s.pp.num))] } := by
    simp [run, step, hpc, workAdvance, workSend, Next, hnum, hbuf, hcap]
  refine ⟨_, h, rfl, rfl, ?_⟩
  simp [receivedOf, List.filterMap_append]

/-- A fresh pool can serve any number of calls of `Next`. -/
theorem rounds {γ ε : Type} [DecidableEq γ] (env : Env γ ε) (P : List (Int × γ))
    (N : Nat) (hN : 1 ≤ N) (s0 : Sys γ) (hinv : Inv P N s0) (hpc : s0.pc = .loopTop)
    (hbuf : s0.pp.worker.buf = []) (m : Nat) :
    ∃ acts s, run env acts s0 = some s ∧ s.pc = .loopTop ∧ s.pp.worker.buf = [] ∧
      (∀ a ∈ acts, isCallStop a = false) ∧
      (receivedOf s.trace).length = (receivedOf s0.trace).length + m := by
  induction m with
  | zero => exact ⟨[], s0, rfl, hpc, hbuf, by simp, rfl⟩
  | succ m ih =>
    obtain ⟨acts, s, h1, h2, h3, h4, h5⟩ := ih
    have hinv2 := Inv_run env P N hN acts s0 s hinv h1
    obtain ⟨s1, k1, k2, k3, k4⟩ := round_step env P N hN s hinv2 h2 h3
    refine ⟨acts ++ [.workAdvance, .workSend, .next], s1, ?_, k2, k3, ?_, by omega⟩
    · rw [run_append, h1]; exact k1
    · intro a ha
      rcases List.mem_append.1 ha with ha | ha
      · exact h4 a ha
      · simp only [List.mem_cons, List.mem_singleton, List.not_mem_nil, or_false] at ha
        rcases ha with rfl | rfl | rfl <;> rfl

/-- The rotation over the map that `NewProducer` builds. -/
theorem offer_built {γ : Type} (c : Nat → γ) (N : Nat) (hN : 1 ≤ N) (k : Nat) :
    offer ((List.range N).map (fun (i : Nat) => ((i : Int), c i))) N k =
      some (c ((k + 1) % N)) := by
  rw [offer, List.range_eq_range']
  exact mapGet_range' c N 0 _ (Nat.zero_le _) (by have := Nat.mod_lt (k + 1) hN; omega)

/-- Claim C1.  A pool freshly built by `NewProducer` with `N >= 1` connections, the
connection built at index `i` being `c i`.  In every run (any interleaving of the goroutine
`work` with the callers) the `k`-th call of `Next`, counting from 1, returns `c (k % N)`:
the first one returns the connection at index `1 % N`, each later one the next index modulo
`N`.  The connections being pairwise distinct, each of them is returned exactly twice in any
`2 * N` consecutive calls.  And the calls do return: for every `m` some run completes `m`
calls of `Next`. -/
theorem Next_round_robin {γ ε : Type} [DecidableEq γ] (env : Env γ ε) (addr : String)
    (config : Config) (N : Nat) (hN : 1 ≤ N) (c : Nat → γ)
    (hc : ∀ i < N, env.newProducer (i : Int) addr config = .ok (c i))
    (hinj : ∀ i < N, ∀ j < N, c i = c j → i = j) :
    ∃ s0, start env addr config N = some s0 ∧
      (∀ acts s, run env acts s0 = some s →
        receivedOf s.trace =
            (List.range (receivedOf s.trace).length).map (fun k => some (c ((k + 1) % N))) ∧
          ∀ j i, i < N → j + 2 * N ≤ (receivedOf s.trace).length →
            (((receivedOf s.trace).drop j).take (2 * N)).count (some (c i)) = 2) ∧
      (∀ m, ∃ acts s, (∀ a ∈ acts, isCallStop a = false) ∧ run env acts s0 = some s ∧
        (receivedOf s.trace).length = m) := by
  have hnew := NewProducer_ok env addr config N c hc
  have hstart : start env addr config N = some
      { pp := { pool := (List.range N).map (fun (i : Nat) => ((i : Int), c i)), num := N,
                addr := addr, config := config, next := 0, worker := ⟨N, []⟩,
                stopChan := ⟨0, []⟩ },
        pc := .loopTop,
        trace := (List.range N).map (fun (i : Nat) => Event.newProducer (i : Int) addr config) ++
          [.goWork],
        stopWaiting := 0, stopsDone := 0 } := by
    simp only [start, hnew]
  refine ⟨_, hstart, ?_, ?_⟩
  · intro acts s hrun
    have hinv := Inv_run env _ N hN acts _ s (Inv_start env addr config N _ hstart) hrun
    have hpre := received_prefix _ N s hinv
    have hfun : offer ((List.range N).map (fun (i : Nat) => ((i : Int), c i))) N =
        fun k => some (c ((k + 1) % N)) := by
      funext k
      exact offer_built c N hN k
    simp only [hfun] at hpre
    refine ⟨hpre, ?_⟩
    intro j i hi hj
    rw [hpre, window_eq _ _ j (2 * N) hj, List.count, List.countP_map]
    refine Eq.trans ?_ (countP_mod_two_windows N i hi (j + 1))
    apply List.countP_congr
    intro t _
    simp only [Function.comp, beq_iff_eq, Option.some.injEq, decide_eq_true_eq]
    rw [show j + 1 + t = j + t + 1 by omega]
    constructor
    · intro h
      exact hinj _ (Nat.mod_lt _ hN) _ hi h
    · intro h
      rw [h]
  · intro m
    obtain ⟨acts, s, h1, _, _, h4, h5⟩ :=
      rounds env _ N hN _ (Inv_start env addr config N _ hstart) rfl rfl m
    have h0 := (start_spec env addr config N _ hstart).2.2.2.2.2.2.2.2.1
    rw [h0] at h5
    exact ⟨acts, s, h4, h1, by simpa using h5⟩

/-- A pool of two connections: the calls of `Next` return 1, 0, 1, 0, ... -/
theorem Next_round_robin_witness :
    (1 ≤ 2 ∧ (∀ i < 2, envOk.newProducer ((i : Nat) : Int) "nsqd:4150" ⟨[]⟩ = .ok (i : Int)) ∧
      (∀ i < 2, ∀ j < 2, ((i : Nat) : Int) = ((j : Nat) : Int) → i = j)) ∧
    ∃ s0, start envOk "nsqd:4150" ⟨[]⟩ ((2 : Nat) : Int) = some s0 ∧
      (∀ acts s, run envOk acts s0 = some s →
        receivedOf s.trace =
            (List.range (receivedOf s.trace).length).map
              (fun k => some (((k + 1) % 2 : Nat) : Int)) ∧
          ∀ j i, i < 2 → j + 2 * 2 ≤ (receivedOf s.trace).length →
            (((receivedOf s.trace).drop j).take (2 * 2)).count (some ((i : Nat) : Int)) = 2) ∧
      (∀ m, ∃ acts s, (∀ a ∈ acts, isCallStop a = false) ∧ run envOk acts s0 = some s ∧
        (receivedOf s.trace).length = m) :=
  ⟨⟨by decide, fun _ _ => rfl, fun _ _ _ _ h => Int.ofNat.inj h⟩,
    Next_round_robin envOk "nsqd:4150" ⟨[]⟩ 2 (by decide) (fun i => (i : Int))
      (fun _ _ => rfl) (fun _ _ _ _ h => Int.ofNat.inj h)⟩


/-- Claim C8, amended.  `NewProducer` does not check the count: the only error it returns
is that of a constructor call at some index `0 <= i < N`, so none for `N < 1`.  A pool it
returns for `N >= 1` holds exactly `N` connections, and in every run of such a pool the
cursor update is evaluated with `num = N`, never with zero: `work` does not panic. -/
theorem NewProducer_count_unchecked {γ ε : Type} [DecidableEq γ] (env : Env γ ε)
    (addr : String) (config : Config) (N : Int) :
    (∀ err, (NewProducer env addr config N).2 = .ret (none, some err) →
      ∃ i, 0 ≤ i ∧ i < N ∧ env.newProducer i addr config = .error err) ∧
    (∀ s0, 1 ≤ N → start env addr config N = some s0 →
      (s0.pp.pool.length : Int) = N ∧ s0.pp.num = N ∧
        ∀ acts s, run env acts s0 = some s → s.pc ≠ .panicked ∧ s.pp.num = N) := by
  constructor
  · intro err h
    simp only [NewProducer] at h
    rcases hl : newLoop env addr config N N.toNat 0 [] [] with ⟨tr, e2 | p⟩
    · simp only [hl, Outcome.ret.injEq, Prod.mk.injEq, Option.some.injEq, true_and] at h
      subst h
      exact newLoop_error env addr config N N.toNat 0 [] [] e2 (by rw [hl])
    · simp only [hl] at h
      split at h <;> simp at h
  · intro s0 hN hstart
    obtain ⟨_, h1, h2, _⟩ := start_spec env addr config N s0 hstart
    refine ⟨h1, h2, ?_⟩
    intro acts s hrun
    obtain ⟨n, rfl⟩ : ∃ n : Nat, N = n := ⟨N.toNat, by omega⟩
    have hinv := Inv_run env _ n (by omega) acts s0 s (Inv_start env addr config n s0 hstart) hrun
    exact ⟨hinv.alive, hinv.num_eq⟩

/-- A pool of two connections never divides by zero. -/
theorem NewProducer_count_unchecked_witness :
    ∃ s0 : Sys Int,
      ((1 : Int) ≤ 2 ∧ start envOk "nsqd:4150" ⟨[]⟩ 2 = some s0) ∧
      (s0.pp.pool.length : Int) = 2 ∧ s0.pp.num = 2 ∧
        ∀ acts s, run envOk acts s0 = some s → s.pc ≠ .panicked ∧ s.pp.num = 2 :=
  ⟨_, ⟨by decide, rfl⟩,
    (NewProducer_count_unchecked envOk "nsqd:4150" ⟨[]⟩ 2).2 _ (by decide) rfl⟩

/-- Claim C8 as stated fails.  For `N = 0` `NewProducer` returns a pool without
connections and a nil error, and the first cursor update of `work` divides by zero. -/
theorem NewProducer_accepts_zero :
    (NewProducer envOk "nsqd:4150" ⟨[]⟩ 0).2 =
        .ret (some { pool := [], num := 0, addr := "nsqd:4150", config := ⟨[]⟩, next := 0,
                     worker := ⟨0, []⟩, stopChan := ⟨0, []⟩ }, none) ∧
      ((start envOk "nsqd:4150" ⟨[]⟩ 0).bind (step envOk .workAdvance)).map (fun s => s.pc) =
        some .panicked := by
  exact ⟨rfl, rfl⟩

/-! ## Shutdown -/

/-- After `work` returned, a step neither sends nor moves the cursor; `Next` takes from the
buffer. -/
theorem returned_step {γ ε : Type} [DecidableEq γ] (env : Env γ ε) (a : Action γ)
    (s s2 : Sys γ) (hpc : s.pc = .returned) (hstep : step env a s = some s2) :
    s2.pc = .returned ∧ offeredOf s2.trace = offeredOf s.trace ∧ s2.pp.next = s.pp.next ∧
      ∃ taken, receivedOf s2.trace = receivedOf s.trace ++ taken ∧
        s.pp.worker.buf = taken ++ s2.pp.worker.buf := by
  cases a with
  | workAdvance => simp [step, workAdvance, hpc] at hstep
  | workSend => simp [step, workSend, hpc] at hstep
  | workStop => simp [step, workStop, hpc] at hstep
  | next =>
    simp only [step, hpc, Next] at hstep
    rcases hbuf : s.pp.worker.buf with _ | ⟨v, rest⟩
    · simp [hbuf] at hstep
    · simp only [hbuf, Option.map_some', Option.some.injEq, reduceCtorEq, if_false] at hstep
      subst hstep
      refine ⟨rfl, ?_, rfl, [v], ?_, rfl⟩
      · simp [offeredOf, List.filterMap_append]
      · simp [receivedOf, List.filterMap_append]
  | callStop order =>
    simp only [step, hpc, reduceCtorEq, if_false] at hstep
    split at hstep
    · simp only [Option.some.injEq] at hstep
      subst hstep
      obtain ⟨e1, e2, e3, e4, _, _⟩ := Stop_projections env order s
      exact ⟨by rw [e4]; exact hpc, e2, by rw [e3], [], by rw [e1]; simp, by rw [e3]; simp⟩
    · cases hstep

/-- After `work` returned, a run only drains the buffer. -/
theorem returned_run {γ ε : Type} [DecidableEq γ] (env : Env γ ε) (acts : List (Action γ))
    (s s2 : Sys γ) (hpc : s.pc = .returned) (hrun : run env acts s = some s2) :
    s2.pc = .returned ∧ offeredOf s2.trace = offeredOf s.trace ∧ s2.pp.next = s.pp.next ∧
      ∃ taken, receivedOf s2.trace = receivedOf s.trace ++ taken ∧
        s.pp.worker.buf = taken ++ s2.pp.worker.buf := by
  induction acts generalizing s with
  | nil =>
    simp only [run, Option.some.injEq] at hrun
    subst hrun
    exact ⟨hpc, rfl, rfl, [], by simp, by simp⟩
  | cons a rest ih =>
    simp only [run] at hrun
    rcases hs : step env a s with _ | s1
    · simp [hs] at hrun
    · simp only [hs] at hrun
      obtain ⟨a1, a2, a3, t1, a4, a5⟩ := returned_step env a s s1 hpc hs
      obtain ⟨b1, b2, b3, t2, b4, b5⟩ := ih s1 a1 hrun
      exact ⟨b1, by rw [b2, a2], by rw [b3, a3], t1 ++ t2, by rw [b4, a4]; simp,
        by rw [a5, b5]; simp⟩

/-- While the process lives, a call of `Next` on a non-empty buffer returns its oldest
value and leaves the rest. -/
theorem next_enabled {γ ε : Type} [DecidableEq γ] (env : Env γ ε) (s : Sys γ)
    (v : Option γ) (rest : List (Option γ)) (hpc : s.pc ≠ .panicked)
    (hbuf : s.pp.worker.buf = v :: rest) :
    step env .next s = some
      { s with
        pp := { s.pp with worker := { s.pp.worker with buf := rest } },
        trace := s.trace ++ [.received v] } := by
  simp [step, hpc, Next, hbuf]

/-- While the process lives, as many calls of `Next` as the buffer holds values return
these values, oldest first, and empty the buffer. -/
theorem drain {γ ε : Type} [DecidableEq γ] (env : Env γ ε) (buf : List (Option γ))
    (s : Sys γ) (hpc : s.pc ≠ .panicked) (hbuf : s.pp.worker.buf = buf) :
    ∃ s2, run env (List.replicate buf.length .next) s = some s2 ∧
      receivedOf s2.trace = receivedOf s.trace ++ buf ∧ s2.pp.worker.buf = [] := by
  induction buf generalizing s with
  | nil => exact ⟨s, rfl, by simp, hbuf⟩
  | cons v rest ih =>
    have hstep := next_enabled env s v rest hpc hbuf
    obtain ⟨s2, k1, k2, k3⟩ := ih
      { s with
        pp := { s.pp with worker := { s.pp.worker with buf := rest } },
        trace := s.trace ++ [.received v] } hpc rfl
    refine ⟨s2, ?_, ?_, k3⟩
    · simp only [List.length_cons, List.replicate_succ, run, hstep]
      exact k1
    · rw [k2]
      simp [receivedOf, List.filterMap_append]

/-- Claim C6, amended.  Once a `Stop` has returned, the goroutine `work` has left its
loop for good: in every continuation nothing more is sent on the handoff channel and the
cursor no longer moves, and what the calls of `Next` receive is taken from the front of the
buffer as it was when `Stop` returned, so at most `N` values.  Such calls do receive: while
the buffer holds a value a call of `Next` returns the oldest one, and as many calls as the
buffer holds values return all of them, oldest first.  With the buffer empty `Next`
blocks. -/
theorem no_offer_after_Stop {γ ε : Type} [DecidableEq γ] (env : Env γ ε) (addr : String)
    (config : Config) (N : Nat) (hN : 1 ≤ N) (s0 : Sys γ)
    (hstart : start env addr config N = some s0) (acts1 : List (Action γ))
    (s1 : Sys γ) (h1 : run env acts1 s0 = some s1) (hstop : 0 < s1.stopsDone) :
    (∀ acts2 s2, run env acts2 s1 = some s2 →
      s2.pc = .returned ∧ offeredOf s2.trace = offeredOf s1.trace ∧
        s2.pp.next = s1.pp.next ∧
        ∃ taken, receivedOf s2.trace = receivedOf s1.trace ++ taken ∧
          s1.pp.worker.buf = taken ++ s2.pp.worker.buf ∧ taken.length ≤ N) ∧
    (∀ v rest, s1.pp.worker.buf = v :: rest →
      ∃ s2, step env .next s1 = some s2 ∧
        receivedOf s2.trace = receivedOf s1.trace ++ [v] ∧ s2.pp.worker.buf = rest ∧
        0 < s2.stopsDone) ∧
    (∃ s2, run env (List.replicate s1.pp.worker.buf.length .next) s1 = some s2 ∧
      receivedOf s2.trace = receivedOf s1.trace ++ s1.pp.worker.buf ∧
      s2.pp.worker.buf = []) ∧
    (s1.pp.worker.buf = [] → step env .next s1 = none) := by
  have hinv := Inv_run env _ N hN acts1 s0 s1 (Inv_start env addr config N s0 hstart) h1
  refine ⟨?_, ?_, drain env _ s1 hinv.alive rfl, ?_⟩
  · intro acts2 s2 h2
    obtain ⟨a1, a2, a3, taken, a4, a5⟩ :=
      returned_run env acts2 s1 s2 (hinv.stopped hstop) h2
    refine ⟨a1, a2, a3, taken, a4, a5, ?_⟩
    have := hinv.room
    rw [a5] at this
    simp only [List.length_append] at this
    omega
  · intro v rest hbuf
    refine ⟨_, next_enabled env s1 v rest hinv.alive hbuf, ?_, rfl, hstop⟩
    simp [receivedOf, List.filterMap_append]
  · intro hbuf
    simp [step, Next, hbuf]

/-- A pool of two connections: connections 1 and 0 staged, `Stop` completed, then two
calls of `Next`, which return 1 and then 0. -/
theorem no_offer_after_Stop_witness :
    (1 ≤ 2 ∧ start envOk "nsqd:4150" ⟨[]⟩ ((2 : Nat) : Int) = some freshTwo ∧
      run envOk
          [.workAdvance, .workSend, .workAdvance, .workSend, .callStop [(0, 0), (1, 1)],
            .workAdvance, .workStop] freshTwo = some stoppedTwo ∧
      0 < stoppedTwo.stopsDone) ∧
    stoppedTwo.pp.worker.buf = [some 1, some 0] ∧ receivedOf stoppedTwo.trace = [] ∧
    ∃ s2, run envOk (List.replicate stoppedTwo.pp.worker.buf.length .next) stoppedTwo =
        some s2 ∧
      receivedOf s2.trace = receivedOf stoppedTwo.trace ++ stoppedTwo.pp.worker.buf ∧
      s2.pp.worker.buf = [] :=
  ⟨⟨by decide, rfl, rfl, by decide⟩, rfl, rfl,
    (no_offer_after_Stop envOk "nsqd:4150" ⟨[]⟩ 2 (by decide) freshTwo (by rfl)
      [.workAdvance, .workSend, .workAdvance, .workSend, .callStop [(0, 0), (1, 1)],
        .workAdvance, .workStop] stoppedTwo (by rfl) (by decide)).2.2.1⟩

/-- Claim C6 as stated fails.  Pool of one connection: the scheduler stages connection 0,
`Stop` runs to completion, and the call of `Next` issued afterwards receives connection 0
from the buffer. -/
theorem Next_after_Stop_receives :
    ¬ ∀ (acts : List (Action Int)) (s : Sys Int),
      (start envOk "nsqd:4150" ⟨[]⟩ 1).bind (run envOk acts) = some s →
        receivedOf (afterStop s.trace) = [] := by
  intro h
  have h1 := h [.workAdvance, .workSend, .callStop [(0, 0)], .workAdvance, .workStop, .next]
    _ rfl
  revert h1
  decide

/-- A step other than a caller entering `Stop` calls no connection method; it delivers at most
one stop signal. -/
theorem quiet_step {γ ε : Type} [DecidableEq γ] (env : Env γ ε) (a : Action γ)
    (s s1 : Sys γ) (ha : isCallStop a = false) (hstep : step env a s = some s1) :
    ∃ later, s1.trace = s.trace ++ later ∧ (∀ ev ∈ later, isCall ev = false) ∧
      later.countP isStopSignal + s1.stopWaiting = s.stopWaiting ∧
      s1.stopsDone = s.stopsDone + later.countP isStopSignal := by
  by_cases hp : s.pc = .panicked
  · simp [step, hp] at hstep
  cases a with
  | workAdvance =>
    simp only [step, hp, if_false, workAdvance] at hstep
    split at hstep
    · split at hstep
      all_goals
        simp only [Option.some.injEq] at hstep
        subst hstep
        exact ⟨[], by simp, by simp, by simp, by simp⟩
    · cases hstep
  | workSend =>
    simp only [step, hp, if_false, workSend] at hstep
    split at hstep
    · simp only [Option.some.injEq] at hstep
      subst hstep
      exact ⟨[_], rfl, by simp [isCall], by simp [isStopSignal], by simp [isStopSignal]⟩
    · cases hstep
  | workStop =>
    simp only [step, hp, if_false, workStop] at hstep
    split at hstep
    · rename_i hcond
      simp only [Option.some.injEq] at hstep
      subst hstep
      refine ⟨[_], rfl, by simp [isCall], ?_, by simp [isStopSignal]⟩
      simp only [List.countP_cons, List.countP_nil, isStopSignal]
      have := hcond.2
      simp only [if_true]
      omega
    · cases hstep
  | next =>
    simp only [step, hp, if_false, Next] at hstep
    rcases hbuf : s.pp.worker.buf with _ | ⟨v, rest⟩
    · simp [hbuf] at hstep
    · simp only [hbuf, Option.map_some', Option.some.injEq] at hstep
      subst hstep
      exact ⟨[_], rfl, by simp [isCall], by simp [isStopSignal], by simp [isStopSignal]⟩
  | callStop order => simp [isCallStop] at ha

/-- A run without a caller entering `Stop` calls no connection method; its stop signals wake
waiting callers. -/
theorem quiet_run {γ ε : Type} [DecidableEq γ] (env : Env γ ε) (acts : List (Action γ))
    (s s1 : Sys γ) (ha : ∀ a ∈ acts, isCallStop a = false) (hrun : run env acts s = some s1) :
    ∃ later, s1.trace = s.trace ++ later ∧ (∀ ev ∈ later, isCall ev = false) ∧
      later.countP isStopSignal + s1.stopWaiting = s.stopWaiting ∧
      s1.stopsDone = s.stopsDone + later.countP isStopSignal := by
  induction acts generalizing s with
  | nil =>
    simp only [run, Option.some.injEq] at hrun
    subst hrun
    exact ⟨[], by simp, by simp, by simp, by simp⟩
  | cons a rest ih =>
    simp only [run] at hrun
    rcases hs : step env a s with _ | s2
    · simp [hs] at hrun
    · simp only [hs] at hrun
      obtain ⟨l1, a1, a2, a3, a4⟩ :=
        quiet_step env a s s2 (ha a (List.mem_cons_self _ _)) hs
      obtain ⟨l2, b1, b2, b3, b4⟩ :=
        ih s2 (fun x hx => ha x (List.mem_cons_of_mem _ hx)) hrun
      refine ⟨l1 ++ l2, by rw [b1, a1]; simp, ?_, ?_, ?_⟩
      · intro ev hev
        rcases List.mem_append.1 hev with h | h
        · exact a2 ev h
        · exact b2 ev h
      · rw [List.countP_append]; omega
      · rw [List.countP_append]; omega

/-- Claim C5.  A call of `Stop` on a running pool (`num >= 1`, no other `Stop` under
way): whatever the scheduler and the callers of `Next` do meanwhile, the trace continues with
exactly one `stop` call per entry of the pool, and everything else, the stop signal included,
comes after these calls; no further `stop` call follows.  The visited connections are a
permutation of the pool's.  And `Stop` does return: some run delivers the stop signal. -/
theorem Stop_broadcasts_first {γ ε : Type} [DecidableEq γ] (env : Env γ ε) (s : Sys γ)
    (order : List (Int × γ)) (horder : order.Perm s.pp.pool) (hnum : 1 ≤ s.pp.num)
    (hpc : s.pc = .loopTop ∨ s.pc = .atSelect) (hidle : s.stopWaiting = 0) :
    (∀ acts s1, (∀ a ∈ acts, isCallStop a = false) →
      run env (.callStop order :: acts) s = some s1 →
      ∃ later, s1.trace = s.trace ++ order.map (fun x => Event.call (.stop x.2)) ++ later ∧
        (∀ ev ∈ later, isCall ev = false) ∧
        later.countP isStopSignal = s1.stopsDone - s.stopsDone ∧
        s1.stopsDone ≤ s.stopsDone + 1) ∧
    (order.map Prod.snd).Perm (s.pp.pool.map Prod.snd) ∧
    (∃ acts s1, (∀ a ∈ acts, isCallStop a = false) ∧
      run env (.callStop order :: acts) s = some s1 ∧ s1.stopsDone = s.stopsDone + 1) := by
  have hp : s.pc ≠ .panicked := by
    rcases hpc with h | h <;> rw [h] <;> simp
  have hfirst : step env (.callStop order) s = some (Stop env order s) := by
    simp [step, hp, horder]
  refine ⟨?_, horder.map _, ?_⟩
  · intro acts s1 ha hrun
    simp only [run, hfirst] at hrun
    obtain ⟨later, a1, a2, a3, a4⟩ := quiet_run env acts _ s1 ha hrun
    rw [Stop_eq] at a1 a3 a4
    simp only at a1 a3 a4
    exact ⟨later, a1, a2, by omega, by omega⟩
  · have hne : s.pp.num ≠ 0 := by omega
    rcases hpc with h | h
    · have hr : run env [.callStop order, .workAdvance, .workStop] s = some
          { s with
            pp := { s.pp with next := Int.tmod (s.pp.next + 1) s.pp.num },
            pc := .returned,
            trace := s.trace ++ order.map (fun x => Event.call (.stop x.2)) ++ [.stopSignal],
            stopWaiting := s.stopWaiting + 1 - 1,
            stopsDone := s.stopsDone + 1 } := by
        simp only [run, hfirst]
        rw [Stop_eq]
        simp [step, workAdvance, workStop, h, hne]
      refine ⟨[.workAdvance, .workStop], _, ?_, hr, rfl⟩
      intro a ha
      simp only [List.mem_cons, List.mem_singleton, List.not_mem_nil, or_false] at ha
      rcases ha with rfl | rfl <;> rfl
    · have hr : run env [.callStop order, .workStop] s = some
          { s with
            pc := .returned,
            trace := s.trace ++ order.map (fun x => Event.call (.stop x.2)) ++ [.stopSignal],
            stopWaiting := s.stopWaiting + 1 - 1,
            stopsDone := s.stopsDone + 1 } := by
        simp only [run, hfirst]
        rw [Stop_eq]
        simp [step, workStop, h]
      refine ⟨[.workStop], _, ?_, hr, rfl⟩
      intro a ha
      simp only [List.mem_singleton] at ha
      subst ha; rfl

/-- A pool of two connections, stopped while the scheduler is at the top of its loop. -/
theorem Stop_broadcasts_first_witness :
    ([((1 : Int), (1 : Int)), (0, 0)].Perm stagedTwo.pp.pool ∧ 1 ≤ stagedTwo.pp.num ∧
      (stagedTwo.pc = .loopTop ∨ stagedTwo.pc = .atSelect) ∧ stagedTwo.stopWaiting = 0) ∧
    ∃ acts s1, (∀ a ∈ acts, isCallStop a = false) ∧
      run envOk (.callStop [(1, 1), (0, 0)] :: acts) stagedTwo = some s1 ∧
      s1.stopsDone = stagedTwo.stopsDone + 1 :=
  ⟨⟨List.Perm.swap _ _ _, by decide, Or.inl rfl, rfl⟩,
    (Stop_broadcasts_first envOk stagedTwo [(1, 1), (0, 0)] (List.Perm.swap _ _ _) (by decide)
      (Or.inl rfl) rfl).2.2⟩


/-! ## Publish family -/

/-- Claim C4 fails on the code.  `PublishAsync("t", body, doneChan, 1, "k")` hands the
connection one extra argument, the slice `[1, "k"]`, instead of the two arguments `1` and
`"k"`; called without extra arguments it hands over one argument (an empty slice) instead
of none.  `MultiPublishAsync` and `DeferredPublishAsync` do the same. -/
theorem PublishAsync_nests_args :
    ∃ s, readyOne = some s ∧
      (∃ s1, PublishAsync envOk "t" [1] 7 [Value.int 1, Value.str "k"] s = .ret (none, s1) ∧
        s1.trace.getLast?.bind asyncArgs = some [Value.slice [Value.int 1, Value.str "k"]]) ∧
      (∃ s1, PublishAsync envOk "t" [1] 7 [] s = .ret (none, s1) ∧
        s1.trace.getLast?.bind asyncArgs = some [Value.slice []]) ∧
      (∃ s1, MultiPublishAsync envOk "t" [[1]] 7 [Value.int 1, Value.str "k"] s =
          .ret (none, s1) ∧
        s1.trace.getLast?.bind asyncArgs = some [Value.slice [Value.int 1, Value.str "k"]]) ∧
      (∃ s1, DeferredPublishAsync envOk "t" 5 [1] 7 [Value.int 1, Value.str "k"] s =
          .ret (none, s1) ∧
        s1.trace.getLast?.bind asyncArgs = some [Value.slice [Value.int 1, Value.str "k"]]) :=
  ⟨_, rfl, ⟨_, rfl, rfl⟩, ⟨_, rfl, rfl⟩, ⟨_, rfl, rfl⟩, ⟨_, rfl, rfl⟩⟩

end NsqPool
